import Mathlib

/-!
Verification of the BFC arena allocator (onnxruntime `bfc_arena.h` /
`allocator.h`) against its natural-language specification.

The pure helpers that live in the header (`Log2FloorNonZeroSlow`,
`Log2FloorNonZero`, `BinNumForSize`, `Bin::ChunkComparator`,
`OrtArenaCfg::IsValid`, `AllocationRegion`) are embedded directly from the
source.  The out-of-line parts of the allocator (the bodies of
`Alloc`/`Free`, the split/merge/coalesce engine and the stream-aware reuse
guard live in `bfc_arena.cc`, which is not part of the source tree given
here) are modelled from the specification text; each such definition is
marked `Modelled from the spec:` in its doc comment.

Machine integers (`size_t`, `uint64_t`, `int`) are embedded as `Nat`/`Int`;
range side conditions (`n < 2 ^ 64`) appear as explicit hypotheses where the
C type bounds matter.
-/

namespace BFC

/-- `kMinAllocationBits = 8` from `bfc_arena.h`. -/
def kMinAllocationBits : Nat := 8

/-- `kMinAllocationSize = 1 << kMinAllocationBits` (= 256) from `bfc_arena.h`. -/
def kMinAllocationSize : Nat := 1 <<< kMinAllocationBits

/-- `kNumBins = 21` from `bfc_arena.h`. -/
def kNumBins : Nat := 21

/-- Iteration count of the loop `while (n > 0) { r++; n >>= 1; }` in
`BFCArena::Log2FloorNonZeroSlow`: the number of halvings needed to reach 0. -/
def shiftIter (n : Nat) : Nat :=
  if h : n = 0 then 0 else shiftIter (n / 2) + 1
decreasing_by exact Nat.div_lt_self (Nat.pos_of_ne_zero h) (by decide)

/-- `BFCArena::Log2FloorNonZeroSlow` from `bfc_arena.h`: runs the halving
loop and returns `r - 1` (an `int`, so the result is an integer and is `-1`
on input 0). -/
def Log2FloorNonZeroSlow (n : Nat) : Int :=
  (shiftIter n : Int) - 1

/-- Model of `__builtin_clzll` on a 64-bit value: 64 minus the bit length.
Only meaningful for nonzero inputs below `2 ^ 64` (as in the C source, where
`clzll(0)` is undefined and the argument is `uint64_t`). -/
def clz64 (n : Nat) : Nat := 64 - shiftIter n

/-- `BFCArena::Log2FloorNonZero` from `bfc_arena.h` (the `__GNUC__` branch):
`63 ^ __builtin_clzll(n)`. -/
def Log2FloorNonZero (n : Nat) : Int :=
  ((63 ^^^ clz64 n : Nat) : Int)

/-- `BFCArena::BinNumToSize` from `bfc_arena.h`:
`static_cast<size_t>(256) << index`. -/
def BinNumToSize (index : Nat) : Nat := 256 <<< index

/-- `BFCArena::BinNumForSize` from `bfc_arena.h`:
`v = max(bytes, 256) >> kMinAllocationBits; min(kNumBins - 1, Log2FloorNonZero v)`. -/
def BinNumForSize (bytes : Nat) : Int :=
  min ((kNumBins : Int) - 1) (Log2FloorNonZero (max bytes 256 >>> kMinAllocationBits))

/-! ### Arithmetic facts about the log helpers -/

theorem shiftIter_zero : shiftIter 0 = 0 := by
  unfold shiftIter; simp

theorem shiftIter_pos (n : Nat) (h : n ≠ 0) :
    shiftIter n = shiftIter (n / 2) + 1 := by
  conv_lhs => unfold shiftIter
  simp [h]

/-- The halving loop counts `⌊log₂ n⌋ + 1` iterations on a positive input. -/
theorem shiftIter_eq_log (n : Nat) (h : n ≠ 0) :
    shiftIter n = Nat.log 2 n + 1 := by
  induction n using Nat.strong_induction_on with
  | _ n ih =>
    rcases Nat.lt_or_ge n 2 with h2 | h2
    · interval_cases n
      · exact absurd rfl h
      · rw [shiftIter_pos 1 (by decide)]
        simp [shiftIter_zero, Nat.log]
    · have hhalf : n / 2 ≠ 0 := by
        have : 1 ≤ n / 2 := Nat.one_le_div_iff (by decide) |>.mpr h2
        omega
      have hlt : n / 2 < n := Nat.div_lt_self (by omega) (by decide)
      rw [shiftIter_pos n h, ih (n / 2) hlt hhalf]
      have hrec : Nat.log 2 (n / 2) = Nat.log 2 n - 1 := Nat.log_div_base 2 n
      have hpos : 0 < Nat.log 2 n := Nat.log_pos (by decide) h2
      omega

theorem log2FloorSlow_eq_log (n : Nat) (h : n ≠ 0) :
    Log2FloorNonZeroSlow n = (Nat.log 2 n : Int) := by
  unfold Log2FloorNonZeroSlow
  rw [shiftIter_eq_log n h]
  push_cast
  ring

theorem log2FloorSlow_zero : Log2FloorNonZeroSlow 0 = -1 := by
  unfold Log2FloorNonZeroSlow
  rw [shiftIter_zero]
  simp

/-- XOR with the low-6-bit mask: `63 ^^^ (63 - k) = k` for `k ≤ 63`. -/
theorem xor63 (k : Nat) (hk : k ≤ 63) : 63 ^^^ (63 - k) = k := by
  have : ∀ m : Fin 64, 63 ^^^ (63 - (m : Nat)) = (m : Nat) := by decide
  exact this ⟨k, by omega⟩

theorem log_lt_64 (n : Nat) (hn : n < 2 ^ 64) : Nat.log 2 n ≤ 63 := by
  rcases Nat.eq_zero_or_pos n with rfl | hpos
  · simp
  · have := Nat.log_lt_of_lt_pow (by omega : n ≠ 0) hn
    omega

theorem log2FloorFast_eq_log (n : Nat) (h : n ≠ 0) (hn : n < 2 ^ 64) :
    Log2FloorNonZero n = (Nat.log 2 n : Int) := by
  unfold Log2FloorNonZero clz64
  rw [shiftIter_eq_log n h]
  have hle : Nat.log 2 n ≤ 63 := log_lt_64 n hn
  have : 64 - (Nat.log 2 n + 1) = 63 - Nat.log 2 n := by omega
  rw [this, xor63 _ hle]

/-- C9: For every `n > 0` below `2 ^ 64`, `Log2FloorNonZeroSlow` returns
`⌊log₂ n⌋` and agrees with the intrinsic-based `Log2FloorNonZero`; on input
`0` the slow version returns `-1`. -/
theorem log2FloorSlow_correct (n : Nat) (hn : n < 2 ^ 64) (h0 : n ≠ 0) :
    Log2FloorNonZeroSlow n = (Nat.log 2 n : Int) ∧
    Log2FloorNonZeroSlow n = Log2FloorNonZero n ∧
    Log2FloorNonZeroSlow 0 = -1 := by
  refine ⟨log2FloorSlow_eq_log n h0, ?_, log2FloorSlow_zero⟩
  rw [log2FloorSlow_eq_log n h0, log2FloorFast_eq_log n h0 hn]

theorem log2FloorSlow_correct_witness :
    Log2FloorNonZeroSlow 6 = (Nat.log 2 6 : Int) ∧
    Log2FloorNonZeroSlow 6 = Log2FloorNonZero 6 ∧
    Log2FloorNonZeroSlow 0 = -1 :=
  log2FloorSlow_correct 6 (by norm_num) (by norm_num)

/-- C2: the bin index chosen for a request of `b` bytes is
`min 20 ⌊log₂ (max b 256 / 256)⌋` for every `b` in `size_t` range. -/
theorem binNumForSize_formula (b : Nat) (hb : b < 2 ^ 64) :
    BinNumForSize b = min 20 ((Nat.log 2 (max b 256 / 256) : Int)) := by
  unfold BinNumForSize
  have hv : max b 256 >>> kMinAllocationBits = max b 256 / 256 := by
    rw [Nat.shiftRight_eq_div_pow]
    norm_num [kMinAllocationBits]
  rw [hv]
  have hne : max b 256 / 256 ≠ 0 := by
    have h256 : 256 ≤ max b 256 := le_max_right _ _
    have : 1 ≤ max b 256 / 256 := (Nat.one_le_div_iff (by decide)).mpr h256
    omega
  have hlt : max b 256 / 256 < 2 ^ 64 := by
    have h1 : max b 256 < 2 ^ 64 := by
      rcases max_cases b 256 with ⟨he, _⟩ | ⟨he, _⟩ <;> rw [he] <;> omega
    have h2 : max b 256 / 256 ≤ max b 256 := Nat.div_le_self _ _
    omega
  rw [log2FloorFast_eq_log _ hne hlt]
  norm_num [kNumBins]

theorem binNumForSize_formula_witness :
    (600 : Nat) < 2 ^ 64 ∧
    BinNumForSize 600 = min 20 ((Nat.log 2 (max 600 256 / 256) : Int)) :=
  ⟨by norm_num, binNumForSize_formula 600 (by norm_num)⟩

/-! ### Free-chunk ordering and best-fit selection (C3) -/

/-- The fields of `BFCArena::Chunk` read by the bin ordering and the best-fit
search: the full byte size of the span and its base address (`ptr`). -/
structure Chunk where
  size : Nat
  ptr : Nat
deriving DecidableEq, Repr

/-- `BFCArena::Bin::ChunkComparator::operator()` from `bfc_arena.h`:
sort first by size and then use the pointer address as a tie breaker. -/
def ChunkComparator (a b : Chunk) : Bool :=
  if a.size ≠ b.size then decide (a.size < b.size) else decide (a.ptr < b.ptr)

/-- Modelled from the spec: the best-fit search of `BFCArena::FindChunkPtr`
(in `bfc_arena.cc`, not part of the given sources).  Bins are scanned in
increasing size order and, within a bin, the ordered set yields chunks in
`ChunkComparator` order; the first free chunk whose size is at least the
rounded request is taken.  Equivalently, the comparator-least chunk among the
sufficiently large free chunks is selected, which is what this function
computes over the collection of free chunks. -/
def findBestFit (rounded : Nat) : List Chunk → Option Chunk
  | [] => none
  | c :: rest =>
    match findBestFit rounded rest with
    | none => if rounded ≤ c.size then some c else none
    | some d =>
      if rounded ≤ c.size then
        if ChunkComparator c d then some c else some d
      else some d

theorem ChunkComparator_iff (a b : Chunk) :
    ChunkComparator a b = true ↔
      a.size < b.size ∨ (a.size = b.size ∧ a.ptr < b.ptr) := by
  unfold ChunkComparator
  by_cases h : a.size = b.size <;> simp [h]

theorem ChunkComparator_eq_false_iff (a b : Chunk) :
    ChunkComparator a b = false ↔
      b.size ≤ a.size ∧ (a.size = b.size → b.ptr ≤ a.ptr) := by
  rw [← Bool.not_eq_true, ChunkComparator_iff]
  push_neg
  omega

theorem findBestFit_none (rounded : Nat) (l : List Chunk)
    (h : findBestFit rounded l = none) : ∀ d ∈ l, ¬ rounded ≤ d.size := by
  induction l with
  | nil => simp
  | cons a rest ih =>
    intro d hd
    unfold findBestFit at h
    rcases hr : findBestFit rounded rest with _ | e <;> rw [hr] at h
    · by_cases ha : rounded ≤ a.size
      · simp [ha] at h
      · rcases List.mem_cons.mp hd with rfl | hm
        · exact ha
        · exact ih hr d hm
    · by_cases ha : rounded ≤ a.size <;> simp [ha] at h
      by_cases hc : ChunkComparator a e = true <;> simp [hc] at h

theorem findBestFit_spec (rounded : Nat) (l : List Chunk) :
    ∀ c, findBestFit rounded l = some c →
      c ∈ l ∧ rounded ≤ c.size ∧
      ∀ d ∈ l, rounded ≤ d.size → ChunkComparator d c = false := by
  induction l with
  | nil => intro c h; simp [findBestFit] at h
  | cons a rest ih =>
    intro c h
    unfold findBestFit at h
    rcases hr : findBestFit rounded rest with _ | e <;> rw [hr] at h
    · by_cases ha : rounded ≤ a.size <;> simp [ha] at h
      subst h
      refine ⟨List.mem_cons_self _ _, ha, fun d hd hds => ?_⟩
      rcases List.mem_cons.mp hd with rfl | hm
      · simp [ChunkComparator]
      · exact absurd hds (findBestFit_none rounded rest hr d hm)
    · obtain ⟨he, hes, hmin⟩ := ih e hr
      by_cases ha : rounded ≤ a.size <;> simp [ha] at h
      · by_cases hc : ChunkComparator a e = true <;> simp [hc] at h <;> subst h
        · refine ⟨List.mem_cons_self _ _, ha, fun d hd hds => ?_⟩
          rcases List.mem_cons.mp hd with rfl | hm
          · simp [ChunkComparator]
          · have h1 := hmin d hm hds
            rw [ChunkComparator_iff] at hc
            rw [ChunkComparator_eq_false_iff] at h1 ⊢
            omega
        · refine ⟨List.mem_cons_of_mem _ he, hes, fun d hd hds => ?_⟩
          rcases List.mem_cons.mp hd with rfl | hm
          · rw [Bool.not_eq_true] at hc
            rw [ChunkComparator_eq_false_iff] at hc ⊢
            omega
          · exact hmin d hm hds
      · subst h
        refine ⟨List.mem_cons_of_mem _ he, hes, fun d hd hds => ?_⟩
        rcases List.mem_cons.mp hd with rfl | hm
        · exact absurd hds ha
        · exact hmin d hm hds

/-- C3: the bin ordering is by (size ascending, address ascending) and the
best-fit search selects, among the free chunks large enough for the request,
the lowest-address chunk of the smallest sufficient size: the selected chunk
is sufficient, and no other sufficient chunk `d` precedes it in
`ChunkComparator` order (`ChunkComparator d c = false`: `d` has a strictly
larger size, or an equal size and a greater-or-equal address — see
`ChunkComparator_eq_false_iff`). -/
theorem bestFit_selects_least (rounded : Nat) (l : List Chunk) (c d : Chunk)
    (h : findBestFit rounded l = some c) (hd : d ∈ l)
    (hds : rounded ≤ d.size) :
    c ∈ l ∧ rounded ≤ c.size ∧ ChunkComparator d c = false ∧
    c.size ≤ d.size ∧ (c.size = d.size → c.ptr ≤ d.ptr) := by
  obtain ⟨hmem, hsz, hmin⟩ := findBestFit_spec rounded l c h
  have h1 := hmin d hd hds
  have h2 := h1
  rw [ChunkComparator_eq_false_iff] at h2
  exact ⟨hmem, hsz, h1, h2.1, fun he => by omega⟩

/-- The spec's concrete scenario: free chunks of sizes 512, 1024, 1024 at
increasing addresses; a request for 600 bytes (rounded to 768) selects the
1024-byte chunk at the lower address, never the 512-byte chunk (which is
too small) and never the higher-address 1024-byte chunk. -/
theorem bestFit_selects_least_witness :
    findBestFit 768 [⟨512, 4096⟩, ⟨1024, 8192⟩, ⟨1024, 16384⟩] =
      some ⟨1024, 8192⟩ ∧
    (Chunk.mk 1024 8192 ∈ [Chunk.mk 512 4096, ⟨1024, 8192⟩, ⟨1024, 16384⟩] ∧
      768 ≤ (Chunk.mk 1024 8192).size ∧
      ChunkComparator ⟨1024, 16384⟩ ⟨1024, 8192⟩ = false ∧
      (Chunk.mk 1024 8192).size ≤ (Chunk.mk 1024 16384).size ∧
      ((Chunk.mk 1024 8192).size = (Chunk.mk 1024 16384).size →
        (Chunk.mk 1024 8192).ptr ≤ (Chunk.mk 1024 16384).ptr)) :=
  ⟨by decide,
    bestFit_selects_least 768 [⟨512, 4096⟩, ⟨1024, 8192⟩, ⟨1024, 16384⟩]
      ⟨1024, 8192⟩ ⟨1024, 16384⟩ (by decide) (by decide) (by decide)⟩

/-! ### Arena configuration validation (C8) -/

/-- `OrtArenaCfg` from `allocator.h`.  `max_mem` is a `size_t`; the other
fields are signed (`int` / `int64_t`), embedded as `Int`. -/
structure OrtArenaCfg where
  max_mem : Nat
  arena_extend_strategy : Int
  initial_chunk_size_bytes : Int
  max_dead_bytes_per_chunk : Int
  initial_growth_chunk_size_bytes : Int
  max_power_of_two_extend_bytes : Int
deriving DecidableEq, Repr

/-- `OrtArenaCfg::IsValid` from `allocator.h`. -/
def OrtArenaCfg.IsValid (c : OrtArenaCfg) : Bool :=
  c.arena_extend_strategy ≥ -1 && c.arena_extend_strategy ≤ 1 &&
  c.initial_chunk_size_bytes ≥ -1 &&
  c.max_dead_bytes_per_chunk ≥ -1 &&
  c.initial_growth_chunk_size_bytes ≥ -1 &&
  c.max_power_of_two_extend_bytes ≥ -1

/-- Modelled from the spec: the construction path
(`CreateAndRegisterAllocator`, not part of the given sources) runs the
explicit validity check before building the arena, so an invalid
configuration is rejected before any allocation occurs. -/
def createArena (c : OrtArenaCfg) : Except String OrtArenaCfg :=
  if c.IsValid then Except.ok c else Except.error "invalid arena configuration"

/-- C8: configuration validation succeeds iff the extend strategy is in
`{-1, 0, 1}` and every byte-count field is `≥ -1`; a configuration that
fails the validity check is rejected at construction, before any allocation
occurs. -/
theorem arenaCfg_isValid_iff (c cbad : OrtArenaCfg)
    (hbad : cbad.IsValid = false) :
    (c.IsValid = true ↔
      ((c.arena_extend_strategy = -1 ∨ c.arena_extend_strategy = 0 ∨
        c.arena_extend_strategy = 1) ∧
       c.initial_chunk_size_bytes ≥ -1 ∧
       c.max_dead_bytes_per_chunk ≥ -1 ∧
       c.initial_growth_chunk_size_bytes ≥ -1 ∧
       c.max_power_of_two_extend_bytes ≥ -1)) ∧
    createArena cbad = Except.error "invalid arena configuration" := by
  constructor
  · unfold OrtArenaCfg.IsValid
    simp only [Bool.and_eq_true, decide_eq_true_eq, ge_iff_le]
    omega
  · unfold createArena
    rw [hbad]
    simp

theorem arenaCfg_isValid_iff_witness :
    ((OrtArenaCfg.mk 0 2 (-1) (-1) (-1) (-1)).IsValid = true ↔
      (((OrtArenaCfg.mk 0 2 (-1) (-1) (-1) (-1)).arena_extend_strategy = -1 ∨
        (OrtArenaCfg.mk 0 2 (-1) (-1) (-1) (-1)).arena_extend_strategy = 0 ∨
        (OrtArenaCfg.mk 0 2 (-1) (-1) (-1) (-1)).arena_extend_strategy = 1) ∧
       (OrtArenaCfg.mk 0 2 (-1) (-1) (-1) (-1)).initial_chunk_size_bytes ≥ -1 ∧
       (OrtArenaCfg.mk 0 2 (-1) (-1) (-1) (-1)).max_dead_bytes_per_chunk ≥ -1 ∧
       (OrtArenaCfg.mk 0 2 (-1) (-1) (-1) (-1)).initial_growth_chunk_size_bytes
          ≥ -1 ∧
       (OrtArenaCfg.mk 0 2 (-1) (-1) (-1) (-1)).max_power_of_two_extend_bytes
          ≥ -1)) ∧
    createArena (OrtArenaCfg.mk 0 2 (-1) (-1) (-1) (-1)) =
      Except.error "invalid arena configuration" :=
  arenaCfg_isValid_iff (OrtArenaCfg.mk 0 2 (-1) (-1) (-1) (-1))
    (OrtArenaCfg.mk 0 2 (-1) (-1) (-1) (-1)) (by decide)

/-! ### AllocationRegion slot indexing (C10) -/

/-- `BFCArena::AllocationRegion` from `bfc_arena.h`: base pointer, byte
length, region id, and the dense slot-to-handle array `handles_` (length
`(memory_size + kMinAllocationSize - 1) / kMinAllocationSize`); an entry of
`none` stands for `kInvalidChunkHandle`. -/
structure AllocationRegion where
  base : Nat
  memory_size : Nat
  id : Int
  handles : List (Option Nat)
deriving DecidableEq, Repr

/-- The `AllocationRegion` constructor from `bfc_arena.h`:
`ORT_ENFORCE(0 == memory_size % kMinAllocationSize)` is modelled as the
`none` result; on success every handle slot starts out invalid. -/
def mkAllocationRegion (ptr memory_size : Nat) (id : Int) :
    Option AllocationRegion :=
  if memory_size % kMinAllocationSize = 0 then
    some ⟨ptr, memory_size, id,
      List.replicate ((memory_size + kMinAllocationSize - 1) / kMinAllocationSize)
        none⟩
  else none

/-- `AllocationRegion::IndexFor` from `bfc_arena.h`: the two `ORT_ENFORCE`
range checks (`p_int >= base_int`, `p_int < base_int + memory_size_`) are
modelled as the `none` result; in range, the slot index is
`(p - base) >> kMinAllocationBits`. -/
def IndexFor (r : AllocationRegion) (p : Nat) : Option Nat :=
  if r.base ≤ p ∧ p < r.base + r.memory_size then
    some ((p - r.base) >>> kMinAllocationBits)
  else none

/-- `AllocationRegion::get_handle` from `bfc_arena.h`: `handles_[IndexFor(p)]`,
with the out-of-range enforce surfaced as `none`. -/
def get_handle (r : AllocationRegion) (p : Nat) : Option (Option Nat) :=
  (IndexFor r p).bind fun i => r.handles.get? i

theorem replicate_get? (m i : Nat) (h : i < m) :
    (List.replicate m (none : Option Nat)).get? i = some none := by
  induction m generalizing i with
  | zero => omega
  | succ k ih =>
    cases i with
    | zero => simp [List.replicate_succ]
    | succ j =>
      rw [List.replicate_succ]
      simpa using ih j (by omega)

/-- C10: a constructed region has a byte length that is a multiple of the
256-byte minimum granularity; every pointer `p` inside the region is mapped
by `IndexFor` to the slot index `(p - base) / 256`, which is strictly below
`memory_size / 256` and within the bounds of the `handles` array, so
`get_handle` resolves a slot (initially invalid) rather than indexing out of
bounds; a pointer `q` outside the region fails the enforce checks (`none`)
instead of being silently indexed. -/
theorem allocationRegion_index_safe (ptr size : Nat) (id : Int)
    (r : AllocationRegion) (hr : mkAllocationRegion ptr size id = some r)
    (p q : Nat) (hp1 : r.base ≤ p) (hp2 : p < r.base + r.memory_size)
    (hq : q < r.base ∨ r.base + r.memory_size ≤ q) :
    r.memory_size % kMinAllocationSize = 0 ∧
    IndexFor r p = some ((p - r.base) / 256) ∧
    (p - r.base) / 256 < r.memory_size / 256 ∧
    (p - r.base) / 256 < r.handles.length ∧
    get_handle r p = some none ∧
    IndexFor r q = none := by
  have h256 : kMinAllocationSize = 256 := by decide
  unfold mkAllocationRegion at hr
  rw [h256] at hr
  by_cases hm : size % 256 = 0
  · rw [if_pos hm] at hr
    injection hr with hr
    subst hr
    dsimp only at hp1 hp2 hq ⊢
    have hidx : IndexFor ⟨ptr, size, id,
        List.replicate ((size + 256 - 1) / 256) none⟩ p
        = some ((p - ptr) / 256) := by
      unfold IndexFor
      dsimp only
      rw [if_pos ⟨hp1, hp2⟩, Nat.shiftRight_eq_div_pow]
      norm_num [kMinAllocationBits]
    have hlen : (size + 256 - 1) / 256 = size / 256 := by omega
    have hlt : (p - ptr) / 256 < size / 256 := by omega
    refine ⟨by simpa [h256] using hm, hidx, hlt, ?_, ?_, ?_⟩
    · simp only [List.length_replicate, hlen]
      exact hlt
    · unfold get_handle
      rw [hidx]
      dsimp only
      rw [Option.some_bind, replicate_get? _ _ (by rw [hlen]; exact hlt)]
    · unfold IndexFor
      dsimp only
      rw [if_neg]
      omega
  · rw [if_neg hm] at hr
    cases hr

theorem allocationRegion_index_safe_witness :
    (AllocationRegion.mk 4096 1024 0 (List.replicate 4 none)).memory_size %
        kMinAllocationSize = 0 ∧
    IndexFor (AllocationRegion.mk 4096 1024 0 (List.replicate 4 none)) 4500 =
      some ((4500 - 4096) / 256) ∧
    (4500 - 4096) / 256 <
      (AllocationRegion.mk 4096 1024 0 (List.replicate 4 none)).memory_size /
        256 ∧
    (4500 - 4096) / 256 <
      (AllocationRegion.mk 4096 1024 0 (List.replicate 4 none)).handles.length ∧
    get_handle (AllocationRegion.mk 4096 1024 0 (List.replicate 4 none)) 4500 =
      some none ∧
    IndexFor (AllocationRegion.mk 4096 1024 0 (List.replicate 4 none)) 99 =
      none :=
  allocationRegion_index_safe 4096 1024 0
    (AllocationRegion.mk 4096 1024 0 (List.replicate 4 none)) (by decide)
    4500 99 (by decide) (by decide) (by decide)

/-! ### The allocation path: exhaustion and zero-size requests (C4, C5) -/

/-- Modelled from the spec: `BFCArena::RoundedBytes` (in `bfc_arena.cc`, not
part of the given sources) rounds a request up to the next multiple of the
256-byte minimum granularity. -/
def RoundedBytes (bytes : Nat) : Nat :=
  kMinAllocationSize * ((bytes + kMinAllocationSize - 1) / kMinAllocationSize)

/-- State of the spec-level arena model used for the `Alloc`/`Reserve`
contract: the free chunks, the regions obtained from the device allocator
(base and size), the running total of region bytes against `max_mem`, the
next base address the device allocator would hand out, and counters for
device-allocator calls and region extensions. -/
structure ArenaState where
  freeChunks : List Chunk
  regions : List (Nat × Nat)
  totalRegionBytes : Nat
  memoryLimit : Nat
  nextBase : Nat
  deviceAllocCount : Nat
  numExtends : Nat
  reservedChunks : List (Nat × Nat)
deriving DecidableEq, Repr

/-- Resource exhaustion as the spec describes it: the new region would
exceed `max_mem`, or the device allocator cannot supply a region of the
needed size (`devOk` is the model of the device allocator's ability). -/
def exhausted (devOk : Nat → Bool) (st : ArenaState) (n : Nat) : Prop :=
  st.memoryLimit < st.totalRegionBytes + n ∨ devOk n = false

instance (devOk : Nat → Bool) (st : ArenaState) (n : Nat) :
    Decidable (exhausted devOk st n) := by
  unfold exhausted; infer_instance

/-- Modelled from the spec: `BFCArena::Extend` (in `bfc_arena.cc`, not part
of the given sources) asks the device allocator for a new region that can
satisfy the rounded request, failing recoverably when `max_mem` would be
exceeded or the device allocator cannot supply the region; on success the
new region is covered by one big free chunk. -/
def extend (devOk : Nat → Bool) (st : ArenaState) (rounded : Nat) :
    Option ArenaState :=
  if st.memoryLimit < st.totalRegionBytes + rounded then none
  else if devOk rounded then
    some { st with
      regions := (st.nextBase, rounded) :: st.regions
      freeChunks := ⟨rounded, st.nextBase⟩ :: st.freeChunks
      totalRegionBytes := st.totalRegionBytes + rounded
      nextBase := st.nextBase + rounded
      deviceAllocCount := st.deviceAllocCount + 1
      numExtends := st.numExtends + 1 }
  else none

/-- Modelled from the spec: handing out the selected free chunk — it leaves
the free list and, if larger than the rounded request, the remainder is
split off as a new free chunk. -/
def takeChunk (st : ArenaState) (c : Chunk) (rounded : Nat) : ArenaState :=
  let rest := st.freeChunks.filter (· ≠ c)
  if rounded < c.size then
    { st with freeChunks := ⟨c.size - rounded, c.ptr + rounded⟩ :: rest }
  else { st with freeChunks := rest }

/-- Modelled from the spec: `BFCArena::Alloc` / `AllocateRawInternal` (in
`bfc_arena.cc`, not part of the given sources).  A zero-size request returns
null immediately; otherwise the request is rounded, the best-fitting free
chunk is searched, and if none exists the arena extends itself once and
retries; a failed extension is a recoverable null return that leaves the
arena state untouched.  The result type is a plain pair — the model never
raises for exhaustion. -/
def alloc (devOk : Nat → Bool) (st : ArenaState) (bytes : Nat) :
    Option Nat × ArenaState :=
  if bytes = 0 then (none, st)
  else
    let rounded := RoundedBytes bytes
    match findBestFit rounded st.freeChunks with
    | some c => (some c.ptr, takeChunk st c rounded)
    | none =>
      match extend devOk st rounded with
      | none => (none, st)
      | some st2 =>
        match findBestFit rounded st2.freeChunks with
        | some c => (some c.ptr, takeChunk st2 c rounded)
        | none => (none, st2)

/-- Modelled from the spec: `BFCArena::Reserve` (in `bfc_arena.cc`, not part
of the given sources) has the same null-on-exhaustion contract as `Alloc`
but bypasses the bins and tracks its memory separately in
`reserved_chunks_`. -/
def reserve (devOk : Nat → Bool) (st : ArenaState) (bytes : Nat) :
    Option Nat × ArenaState :=
  if bytes = 0 then (none, st)
  else if st.memoryLimit < st.totalRegionBytes + bytes then (none, st)
  else if devOk bytes then
    (some st.nextBase,
      { st with
        reservedChunks := (st.nextBase, bytes) :: st.reservedChunks
        totalRegionBytes := st.totalRegionBytes + bytes
        nextBase := st.nextBase + bytes
        deviceAllocCount := st.deviceAllocCount + 1 })
  else (none, st)

theorem extend_none_of_exhausted (devOk : Nat → Bool) (st : ArenaState)
    (n : Nat) (h : exhausted devOk st n) : extend devOk st n = none := by
  unfold extend
  rcases h with h | h
  · rw [if_pos h]
  · by_cases hm : st.memoryLimit < st.totalRegionBytes + n
    · rw [if_pos hm]
    · rw [if_neg hm, h]
      simp

/-- C4: when no free chunk fits and the arena is exhausted (the device
allocator cannot supply a new region, or `max_mem` would be exceeded), both
`Alloc` and `Reserve` return null — by their type they return rather than
raising — and leave the arena state exactly as it was, so it stays usable. -/
theorem alloc_reserve_exhaustion (devOk : Nat → Bool) (st : ArenaState)
    (bytes : Nat) (h0 : bytes ≠ 0)
    (hnofit : findBestFit (RoundedBytes bytes) st.freeChunks = none)
    (hexA : exhausted devOk st (RoundedBytes bytes))
    (hexR : exhausted devOk st bytes) :
    alloc devOk st bytes = (none, st) ∧ reserve devOk st bytes = (none, st) := by
  constructor
  · simp only [alloc, if_neg h0, hnofit, extend_none_of_exhausted devOk st _ hexA]
  · unfold reserve
    rw [if_neg h0]
    rcases hexR with h | h
    · rw [if_pos h]
    · by_cases hm : st.memoryLimit < st.totalRegionBytes + bytes
      · rw [if_pos hm]
      · rw [if_neg hm, h]
        simp

theorem alloc_reserve_exhaustion_witness :
    alloc (fun _ => false) (ArenaState.mk [] [] 0 0 4096 0 0 []) 512 =
      (none, ArenaState.mk [] [] 0 0 4096 0 0 []) ∧
    reserve (fun _ => false) (ArenaState.mk [] [] 0 0 4096 0 0 []) 512 =
      (none, ArenaState.mk [] [] 0 0 4096 0 0 []) :=
  alloc_reserve_exhaustion (fun _ => false) (ArenaState.mk [] [] 0 0 4096 0 0 [])
    512 (by decide) (by decide) (Or.inr rfl) (Or.inr rfl)

/-- C5: a zero-size request returns null, is not an error, and leaves the
arena untouched: no call to the device allocator is made, no region is
added, and no extension happens. -/
theorem alloc_zero (devOk : Nat → Bool) (st : ArenaState) :
    alloc devOk st 0 = (none, st) ∧
    (alloc devOk st 0).2.deviceAllocCount = st.deviceAllocCount ∧
    (alloc devOk st 0).2.numExtends = st.numExtends ∧
    (alloc devOk st 0).2.regions = st.regions := by
  have h : alloc devOk st 0 = (none, st) := by unfold alloc; simp
  rw [h]
  exact ⟨rfl, rfl, rfl, rfl⟩

/-! ### Physical contiguity of the chunk chain under split and merge (C7) -/

/-- Whether a chain's first chunk (if any) starts at address `a`. -/
def headPtrIs (l : List Chunk) (a : Nat) : Bool :=
  match l with
  | [] => true
  | c :: _ => c.ptr == a

/-- The contiguity invariant of `BFCArena::Chunk` from `bfc_arena.h`: in the
address-ordered chain, whenever a chunk has a successor (`next` is valid),
the successor starts at `chunk.ptr + chunk.size`.  The chain is represented
as the list of chunks in address order, which is the list obtained by
following `next` links. -/
def contiguousChain : List Chunk → Bool
  | [] => true
  | c :: rest => headPtrIs rest (c.ptr + c.size) && contiguousChain rest

/-- Modelled from the spec: `BFCArena::SplitChunk` (in `bfc_arena.cc`, not
part of the given sources).  The chunk at position `i` in the chain, whose
size exceeds `n`, is shrunk to `n` bytes and a new chunk holding the
remainder at `ptr + n` is spliced in immediately after it. -/
def splitChunk : List Chunk → Nat → Nat → Option (List Chunk)
  | [], _, _ => none
  | c :: rest, 0, n =>
    if 0 < n ∧ n < c.size then
      some (⟨n, c.ptr⟩ :: ⟨c.size - n, c.ptr + n⟩ :: rest)
    else none
  | c :: rest, i + 1, n => (splitChunk rest i n).map (c :: ·)

/-- Modelled from the spec: `BFCArena::Merge` (in `bfc_arena.cc`, not part
of the given sources).  Requires that the second chunk is the `next`
neighbour of the first (here: positions `i` and `i + 1` of the chain);
the first chunk absorbs the second chunk's size and the second chunk's
record is destroyed. -/
def mergeChunks : List Chunk → Nat → Option (List Chunk)
  | c :: d :: rest, 0 => some (⟨c.size + d.size, c.ptr⟩ :: rest)
  | c :: rest, i + 1 => (mergeChunks rest i).map (c :: ·)
  | _, _ => none

/-- One chunk-graph operation of the split/merge engine. -/
inductive ChainOp where
  | split (i n : Nat)
  | merge (i : Nat)
deriving DecidableEq, Repr

def applyOp (ch : List Chunk) : ChainOp → Option (List Chunk)
  | .split i n => splitChunk ch i n
  | .merge i => mergeChunks ch i

/-- Running a whole sequence of split/merge operations on a chain. -/
def runOps (ch : List Chunk) : List ChainOp → Option (List Chunk)
  | [] => some ch
  | op :: ops => (applyOp ch op).bind fun ch2 => runOps ch2 ops

theorem splitChunk_headPtr (l : List Chunk) (i n : Nat) (l' : List Chunk)
    (h : splitChunk l i n = some l') (a : Nat) :
    headPtrIs l' a = headPtrIs l a := by
  cases l with
  | nil => simp [splitChunk] at h
  | cons c rest =>
    cases i with
    | zero =>
      unfold splitChunk at h
      by_cases hc : 0 < n ∧ n < c.size
      · rw [if_pos hc] at h
        injection h with h
        subst h
        rfl
      · rw [if_neg hc] at h
        cases h
    | succ j =>
      unfold splitChunk at h
      rcases hs : splitChunk rest j n with _ | tl <;> rw [hs] at h
      · cases h
      · injection h with h
        subst h
        rfl

theorem mergeChunks_headPtr (l : List Chunk) (i : Nat) (l' : List Chunk)
    (h : mergeChunks l i = some l') (a : Nat) :
    headPtrIs l' a = headPtrIs l a := by
  cases l with
  | nil => simp [mergeChunks] at h
  | cons c rest =>
    cases i with
    | zero =>
      cases rest with
      | nil => simp [mergeChunks] at h
      | cons d tl =>
        unfold mergeChunks at h
        injection h with h
        subst h
        rfl
    | succ j =>
      cases rest with
      | nil => simp [mergeChunks] at h
      | cons d tl =>
        unfold mergeChunks at h
        rcases hs : mergeChunks (d :: tl) j with _ | tl' <;> rw [hs] at h
        · cases h
        · injection h with h
          subst h
          rfl

theorem splitChunk_contiguous (l : List Chunk) :
    ∀ i n l', contiguousChain l = true → splitChunk l i n = some l' →
      contiguousChain l' = true := by
  induction l with
  | nil => intro i n l' _ h; simp [splitChunk] at h
  | cons c rest ih =>
    intro i n l' hc h
    rw [contiguousChain, Bool.and_eq_true] at hc
    obtain ⟨hhd, hrest⟩ := hc
    cases i with
    | zero =>
      unfold splitChunk at h
      by_cases hcond : 0 < n ∧ n < c.size
      · rw [if_pos hcond] at h
        injection h with h
        subst h
        rw [contiguousChain, Bool.and_eq_true]
        refine ⟨by simp [headPtrIs], ?_⟩
        rw [contiguousChain, Bool.and_eq_true]
        refine ⟨?_, hrest⟩
        have : c.ptr + n + (c.size - n) = c.ptr + c.size := by omega
        rw [this]
        exact hhd
      · rw [if_neg hcond] at h
        cases h
    | succ j =>
      unfold splitChunk at h
      rcases hs : splitChunk rest j n with _ | tl <;> rw [hs] at h
      · cases h
      · injection h with h
        subst h
        rw [contiguousChain, Bool.and_eq_true]
        exact ⟨by rw [splitChunk_headPtr rest j n tl hs]; exact hhd,
          ih j n tl hrest hs⟩

theorem mergeChunks_contiguous (l : List Chunk) :
    ∀ i l', contiguousChain l = true → mergeChunks l i = some l' →
      contiguousChain l' = true := by
  induction l with
  | nil => intro i l' _ h; simp [mergeChunks] at h
  | cons c rest ih =>
    intro i l' hc h
    rw [contiguousChain, Bool.and_eq_true] at hc
    obtain ⟨hhd, hrest⟩ := hc
    cases i with
    | zero =>
      cases rest with
      | nil => simp [mergeChunks] at h
      | cons d tl =>
        unfold mergeChunks at h
        injection h with h
        subst h
        rw [contiguousChain, Bool.and_eq_true]
        rw [contiguousChain, Bool.and_eq_true] at hrest
        have hd : d.ptr = c.ptr + c.size := by
          have h2 := hhd
          simp only [headPtrIs, beq_iff_eq] at h2
          exact h2
        refine ⟨?_, hrest.2⟩
        have := hrest.1
        rw [← Nat.add_assoc, ← hd]
        exact this
    | succ j =>
      cases rest with
      | nil => simp [mergeChunks] at h
      | cons d tl =>
        unfold mergeChunks at h
        rcases hs : mergeChunks (d :: tl) j with _ | tl' <;> rw [hs] at h
        · cases h
        · injection h with h
          subst h
          rw [contiguousChain, Bool.and_eq_true]
          exact ⟨by rw [mergeChunks_headPtr (d :: tl) j tl' hs]; exact hhd,
            ih j tl' hrest hs⟩

theorem runOps_contiguous (ops : List ChainOp) :
    ∀ ch ch', contiguousChain ch = true → runOps ch ops = some ch' →
      contiguousChain ch' = true := by
  induction ops with
  | nil =>
    intro ch ch' hc h
    unfold runOps at h
    injection h with h
    subst h
    exact hc
  | cons op ops ih =>
    intro ch ch' hc h
    unfold runOps at h
    rcases ha : applyOp ch op with _ | ch2 <;> rw [ha] at h
    · cases h
    · rw [Option.some_bind] at h
      refine ih ch2 ch' ?_ h
      cases op with
      | split i n => exact splitChunk_contiguous ch i n ch2 hc ha
      | merge i => exact mergeChunks_contiguous ch i ch2 hc ha

/-- C7: the physical-contiguity invariant — every chunk with a valid `next`
ends exactly where its successor starts — is preserved by every sequence of
split and merge operations, so it holds after every operation when it holds
initially (in particular starting from the single chunk spanning a fresh
region, whose chain is trivially contiguous). -/
theorem chain_contiguity_preserved (ops : List ChainOp) (ch ch' : List Chunk)
    (hc : contiguousChain ch = true) (hr : runOps ch ops = some ch') :
    contiguousChain ch' = true :=
  runOps_contiguous ops ch ch' hc hr

/-- A concrete run: one 1024-byte region chunk is split twice and the first
two pieces are merged back; contiguity holds throughout. -/
theorem chain_contiguity_preserved_witness :
    contiguousChain [⟨512, 4096⟩, ⟨512, 4608⟩] = true :=
  chain_contiguity_preserved
    [ChainOp.split 0 256, ChainOp.split 1 256, ChainOp.merge 0]
    [⟨1024, 4096⟩] [⟨512, 4096⟩, ⟨512, 4608⟩]
    (by decide) (by decide)

/-! ### The free path: null no-op, foreign pointer and double free (C6) -/

/-- State of the spec-level model of the free path: the allocation regions
(base and size, kept sorted by end address as `RegionManager` does) and the
base pointers of the chunks currently in use (the pointers whose handle
entries resolve to an in-use chunk). -/
structure FreeState where
  regions : List (Nat × Nat)
  live : List Nat
deriving DecidableEq, Repr

/-- `RegionManager::RegionFor` from `bfc_arena.h`: `upper_bound` over the
regions (sorted by end address) with `Comparator(p, r) = p < r.end_ptr`,
i.e. the first region whose end pointer lies strictly beyond `p`; when no
such region exists the source logs `LOGS_DEFAULT(FATAL)`, modelled as
`none`. -/
def regionFor (regions : List (Nat × Nat)) (p : Nat) : Option (Nat × Nat) :=
  regions.find? fun r => decide (p < r.1 + r.2)

/-- Outcome of a `Free` call: either the operation returns normally with the
new arena state, or it reaches a fatal, process-terminating condition
(`none`). -/
def FreeOutcome := Option FreeState

/-- Modelled from the spec: `BFCArena::Free` / `DeallocateRawInternal` (in
`bfc_arena.cc`, not part of the given sources).  A null pointer is a no-op;
otherwise the pointer is resolved to a region via `regionFor` (fatal when it
belongs to no region, per `RegionFor`), must lie at or above the region base
(the `IndexFor` enforce), and must resolve to an in-use chunk — a pointer
that does not (a foreign pointer, or a pointer freed twice) hits the fatal
"pointer not found" condition instead of returning. -/
def freeOp (st : FreeState) (p : Option Nat) : Option FreeState :=
  match p with
  | none => some st
  | some q =>
    match regionFor st.regions q with
    | none => none
    | some r =>
      if q < r.1 then none
      else if q ∈ st.live then some { st with live := st.live.filter (· ≠ q) }
      else none

theorem freeOp_not_live (s : FreeState) (q : Nat) (hq : q ∉ s.live) :
    freeOp s (some q) = none := by
  simp only [freeOp]
  rcases hr : regionFor s.regions q with _ | r
  · simp only [hr]
  · simp only [hr]
    by_cases hb : q < r.1
    · rw [if_pos hb]
    · rw [if_neg hb, if_neg hq]

/-- C6: `Free(null)` is a no-op; freeing any pointer that is not an in-use
allocation — a foreign pointer (`q` here) or a second free of the same
pointer — is the fatal condition (`none`), never a normal return: in
particular, after a free of `q2` that returned normally with state `st2'`,
freeing `q2` again is fatal. -/
theorem free_contract (st : FreeState) (q : Nat) (hq : q ∉ st.live)
    (st2 st2' : FreeState) (q2 : Nat)
    (hsucc : freeOp st2 (some q2) = some st2') :
    freeOp st none = some st ∧
    freeOp st (some q) = none ∧
    freeOp st2' (some q2) = none := by
  refine ⟨rfl, freeOp_not_live st q hq, ?_⟩
  simp only [freeOp] at hsucc
  rcases hr : regionFor st2.regions q2 with _ | r <;> simp only [hr] at hsucc
  · cases hsucc
  · by_cases hb : q2 < r.1
    · rw [if_pos hb] at hsucc
      cases hsucc
    · rw [if_neg hb] at hsucc
      by_cases hq2 : q2 ∈ st2.live
      · rw [if_pos hq2] at hsucc
        injection hsucc with hsucc
        subst hsucc
        refine freeOp_not_live _ q2 ?_
        simp only [List.mem_filter]
        intro hmem
        have h2 := hmem.2
        simp at h2
      · rw [if_neg hq2] at hsucc
        cases hsucc

theorem free_contract_witness :
    freeOp (FreeState.mk [(4096, 1024)] [4096, 4352]) none =
      some (FreeState.mk [(4096, 1024)] [4096, 4352]) ∧
    freeOp (FreeState.mk [(4096, 1024)] [4096, 4352]) (some 555) = none ∧
    freeOp (FreeState.mk [(4096, 1024)] [4352]) (some 4096) = none :=
  free_contract (FreeState.mk [(4096, 1024)] [4096, 4352]) 555 (by decide)
    (FreeState.mk [(4096, 1024)] [4096, 4352])
    (FreeState.mk [(4096, 1024)] [4352]) 4096 (by decide)

/-! ### Stream-aware reuse safety (C1) -/

/-- A chunk as the stream-aware layer sees it: whether it is in use, and the
optional tag `(stream, stream_sync_id)` recording which stream last used it
and at which sync id it was assigned (`Chunk::stream` /
`Chunk::stream_sync_id` in `bfc_arena.h`; `none` models the default
`nullptr` stream). -/
structure SChunk where
  inUse : Bool
  tag : Option (Nat × Nat)
deriving DecidableEq, Repr

/-- State of the stream-synchronization protocol: each stream's latest sync
id, the `<producer stream, sync id>` pairs copied into each consumer's sync
info at synchronization time (keyed by `(consumer, producer)`), and the
chunk pool.  Both tables are association lists with most-recent entry first
and default value 0. -/
structure StreamState where
  syncIds : List (Nat × Nat)
  recorded : List ((Nat × Nat) × Nat)
  chunks : List SChunk
deriving DecidableEq, Repr

/-- Lookup in an association list with default 0 (a missing entry means the
stream was never synchronized / never created a sync event). -/
def lookupD {α : Type} [DecidableEq α] (l : List (α × Nat)) (k : α) : Nat :=
  ((l.find? fun e => decide (e.1 = k)).map (·.2)).getD 0

def syncIdOf (st : StreamState) (s : Nat) : Nat := lookupD st.syncIds s

/-- The sync id for producer `p` recorded in consumer `c`'s sync info at the
last synchronization of the two streams (0 when they never synchronized):
`Stream::GetSyncIdForLastWaitOnStream` as described in `allocator.h`. -/
def recordedOf (st : StreamState) (c p : Nat) : Nat := lookupD st.recorded (c, p)

/-- Events of the protocol: a synchronization of a consumer stream with a
producer stream, an allocation attempt on a stream, a free, and the
end-of-run cleanup that resets every chunk tagged with a finished stream. -/
inductive SEvent where
  | sync (producer consumer : Nat)
  | allocOn (consumer : Nat) (i : Nat)
  | freeChunk (i : Nat)
  | cleanup (s : Nat)
deriving DecidableEq, Repr

/-- Modelled from the spec and the `AllocOnStream` documentation in
`allocator.h`: a freed chunk still tagged with stream `s` at sync id `k` may
be handed to stream `c` only if it is untagged, owned by `c` itself, or the
sync id from when the chunk was assigned is less than the sync id recorded
for `s` at the last synchronization between the two streams. -/
def safeToUse (st : StreamState) (c : Nat) (tag : Option (Nat × Nat)) : Bool :=
  match tag with
  | none => true
  | some (s, k) => s == c || decide (k < recordedOf st c s)

/-- Modelled from the spec: one step of the stream-aware protocol.
Synchronizing increments the producer's sync id and copies the new
`<producer, sync id>` pair into the consumer's sync info; a granted
allocation tags the chunk with the consuming stream and its current sync id;
freeing keeps the tag; the end-of-run cleanup unassigns every chunk of the
finished stream. -/
def step (st : StreamState) : SEvent → StreamState
  | .sync p c =>
    let newId := syncIdOf st p + 1
    { st with
      syncIds := (p, newId) :: st.syncIds
      recorded := ((c, p), newId) :: st.recorded }
  | .allocOn c i =>
    match st.chunks.get? i with
    | some ch =>
      if ch.inUse = false ∧ safeToUse st c ch.tag = true then
        { st with chunks := st.chunks.set i ⟨true, some (c, syncIdOf st c)⟩ }
      else st
    | none => st
  | .freeChunk i =>
    match st.chunks.get? i with
    | some ch => { st with chunks := st.chunks.set i { ch with inUse := false } }
    | none => st
  | .cleanup s =>
    { st with
      chunks := st.chunks.map fun ch =>
        match ch.tag with
        | some (s2, _) => if s2 = s then { ch with tag := none } else ch
        | none => ch }

/-- Running a synchronization history from a given state. -/
def runEvents (st : StreamState) : List SEvent → StreamState
  | [] => st
  | e :: tr => runEvents (step st e) tr

/-- The initial state: `n` untagged free chunks, no sync events yet. -/
def initStream (n : Nat) : StreamState :=
  ⟨[], [], List.replicate n ⟨false, none⟩⟩

/-- The guard of the allocation step: the chunk exists, is not in use, and
the stream-aware reuse rule admits handing it to stream `c`. -/
def allocGranted (st : StreamState) (c i : Nat) : Bool :=
  match st.chunks.get? i with
  | some ch => !ch.inUse && safeToUse st c ch.tag
  | none => false

theorem recordedOf_step (st : StreamState) (e : SEvent) (c p : Nat)
    (hne : e ≠ SEvent.sync p c) :
    recordedOf (step st e) c p = recordedOf st c p := by
  cases e with
  | sync p2 c2 =>
    simp only [step]
    unfold recordedOf lookupD
    dsimp only
    rw [List.find?_cons_of_neg]
    simp only [decide_eq_true_eq]
    intro hdup
    apply hne
    rw [Prod.mk.injEq] at hdup
    rw [hdup.1, hdup.2]
  | allocOn c2 i =>
    simp only [step]
    rcases hg : st.chunks.get? i with _ | ch
    · rfl
    · dsimp only
      by_cases hcond : ch.inUse = false ∧ safeToUse st c2 ch.tag = true
      · rw [if_pos hcond]
        rfl
      · rw [if_neg hcond]
  | freeChunk i =>
    simp only [step]
    rcases hg : st.chunks.get? i with _ | ch <;> rfl
  | cleanup s => rfl

theorem recordedOf_pos_sync_mem (tr : List SEvent) :
    ∀ (st : StreamState) (c p : Nat),
      recordedOf (runEvents st tr) c p ≠ 0 →
      recordedOf st c p ≠ 0 ∨ SEvent.sync p c ∈ tr := by
  induction tr with
  | nil => intro st c p h; exact Or.inl h
  | cons e tr ih =>
    intro st c p h
    unfold runEvents at h
    rcases ih (step st e) c p h with h2 | h2
    · by_cases he : e = SEvent.sync p c
      · exact Or.inr (by rw [he]; exact List.mem_cons_self _ _)
      · rw [recordedOf_step st e c p he] at h2
        exact Or.inl h2
    · exact Or.inr (List.mem_cons_of_mem _ h2)

theorem recordedOf_init (n c p : Nat) : recordedOf (initStream n) c p = 0 := rfl

/-- C1: under every synchronization history, whenever the arena hands a
freed chunk tagged with stream `s` at sync id `k` to a different consumer
stream `c` (the chunk is free and the reuse guard admits it), stream `c` has
previously synchronized with `s` — a `sync s c` event occurs in the history
— and the sync id recorded for `s` at that (latest) synchronization is at
least `k` (in fact strictly greater). -/
theorem stream_reuse_safety (n : Nat) (tr : List SEvent) (c i s k : Nat)
    (hch : (runEvents (initStream n) tr).chunks.get? i =
      some ⟨false, some (s, k)⟩)
    (hne : s ≠ c)
    (hgrant : allocGranted (runEvents (initStream n) tr) c i = true) :
    SEvent.sync s c ∈ tr ∧
    k < recordedOf (runEvents (initStream n) tr) c s ∧
    k ≤ recordedOf (runEvents (initStream n) tr) c s := by
  unfold allocGranted at hgrant
  rw [hch] at hgrant
  simp only [Bool.not_false, Bool.true_and] at hgrant
  unfold safeToUse at hgrant
  rw [Bool.or_eq_true] at hgrant
  rcases hgrant with hgrant | hgrant
  · rw [beq_iff_eq] at hgrant
    exact absurd hgrant hne
  · have hk : k < recordedOf (runEvents (initStream n) tr) c s :=
      of_decide_eq_true hgrant
    have hpos : recordedOf (runEvents (initStream n) tr) c s ≠ 0 := by omega
    rcases recordedOf_pos_sync_mem tr (initStream n) c s hpos with h | h
    · rw [recordedOf_init] at h
      exact absurd rfl h
    · exact ⟨h, hk, Nat.le_of_lt hk⟩

/-- A concrete history: stream 0 takes the chunk at sync id 0, streams 0 and
1 synchronize (recording sync id 1 for stream 0 in stream 1's info), stream
0 frees the chunk; stream 1 may then be handed the chunk, and the recorded
sync id 1 exceeds the chunk's tag id 0. -/
theorem stream_reuse_safety_witness :
    SEvent.sync 0 1 ∈ [SEvent.allocOn 0 0, SEvent.sync 0 1,
      SEvent.freeChunk 0] ∧
    0 < recordedOf (runEvents (initStream 1) [SEvent.allocOn 0 0,
      SEvent.sync 0 1, SEvent.freeChunk 0]) 1 0 ∧
    0 ≤ recordedOf (runEvents (initStream 1) [SEvent.allocOn 0 0,
      SEvent.sync 0 1, SEvent.freeChunk 0]) 1 0 :=
  stream_reuse_safety 1 [SEvent.allocOn 0 0, SEvent.sync 0 1,
    SEvent.freeChunk 0] 1 0 0 0 (by decide) (by decide) (by decide)

end BFC
